import Mathlib

/-!
# Verification of the quadtree image codec (src/img/main.cpp)

Shallow embedding of the core codec: `Color`, the pixel grid
(`List (List Color)` accessed as `data[y][x]`), the `Image` class with its
recorded dimensions `w_`/`h_`, `PadToSquare`, `Image.Resize` (crop),
`IsPowerOfTwo`, `IsValidImageSize`, `isUniform`, `Encode` and `Decode`.

C++ `int` channel values are embedded as `Int`; sizes and indices as `Nat`
(all call sites use non-negative values).  Out-of-bounds vector reads are
undefined behaviour in the C++; the embedding totalises them with the
default colour `{0,0,0}`, and theorems carry in-bounds hypotheses wherever
the C++ behaviour would otherwise be undefined.
-/

/-- C++ `struct Color { int r, g, b; }`. -/
structure Color where
  r : Int
  g : Int
  b : Int
deriving DecidableEq, Repr

/-- The squared colour distance computed inline by `isUniform`
(`dr*dr + dg*dg + db*db`). -/
def distSq (a c : Color) : Int :=
  (a.r - c.r) * (a.r - c.r) + (a.g - c.g) * (a.g - c.g) + (a.b - c.b) * (a.b - c.b)

theorem distSq_nonneg (a c : Color) : 0 ≤ distSq a c := by
  have h1 := mul_self_nonneg (a.r - c.r)
  have h2 := mul_self_nonneg (a.g - c.g)
  have h3 := mul_self_nonneg (a.b - c.b)
  unfold distSq; linarith

theorem distSq_self (a : Color) : distSq a a = 0 := by
  simp [distSq]

theorem distSq_comm (a c : Color) : distSq a c = distSq c a := by
  unfold distSq; ring

theorem distSq_eq_zero_iff (a c : Color) : distSq a c = 0 ↔ a = c := by
  constructor
  · intro h
    have h1 := mul_self_nonneg (a.r - c.r)
    have h2 := mul_self_nonneg (a.g - c.g)
    have h3 := mul_self_nonneg (a.b - c.b)
    have hr : (a.r - c.r) * (a.r - c.r) = 0 := by unfold distSq at h; linarith
    have hg : (a.g - c.g) * (a.g - c.g) = 0 := by unfold distSq at h; linarith
    have hb : (a.b - c.b) * (a.b - c.b) = 0 := by unfold distSq at h; linarith
    have hr' : a.r = c.r := by have := mul_self_eq_zero.mp hr; omega
    have hg' : a.g = c.g := by have := mul_self_eq_zero.mp hg; omega
    have hb' : a.b = c.b := by have := mul_self_eq_zero.mp hb; omega
    cases a; cases c; simp_all
  · intro h; subst h; exact distSq_self a

/-- The default colour: value-initialised `Color` (all channels zero),
also the fill colour `{0, 0, 0}` used by padding and cropping. -/
def black : Color := ⟨0, 0, 0⟩

/-- Pixel grids are `std::vector<std::vector<Color>>`, indexed `data[y][x]`. -/
abbrev Grid := List (List Color)

/-- Read `data[y][x]`, totalised with `black` out of bounds (the C++ read
would be undefined behaviour there). -/
def getPix (g : Grid) (x y : Nat) : Color :=
  (g.getD y []).getD x black

/-- Predicate: `g` is a rectangular grid of width `W` and height `H`: `H` rows, each of
exactly `W` cells (the `PixelGrid` invariant of the data model). -/
def Rect (g : Grid) (W H : Nat) : Prop :=
  g.length = H ∧ ∀ row ∈ g, row.length = W

instance (g : Grid) (W H : Nat) : Decidable (Rect g W H) :=
  decidable_of_iff (g.length = H ∧ ∀ row ∈ g, row.length = W) Iff.rfl

/-- Build an `H`-row, `W`-column grid whose cell `(x, y)` is `f x y`; the
common shape of the construction loops in `PadToSquare` and `Resize`
(allocate, then assign each cell exactly once). -/
def mkGrid (W H : Nat) (f : Nat → Nat → Color) : Grid :=
  (List.range H).map fun y => (List.range W).map fun x => f x y

theorem mkGrid_rect (W H : Nat) (f : Nat → Nat → Color) : Rect (mkGrid W H f) W H := by
  constructor
  · simp [mkGrid]
  · intro row hrow
    simp only [mkGrid, List.mem_map, List.mem_range] at hrow
    obtain ⟨y, _, rfl⟩ := hrow
    simp

theorem getD_map_range {α : Type} (n : Nat) (f : Nat → α) (i : Nat) (d : α) :
    ((List.range n).map f).getD i d = if i < n then f i else d := by
  rcases Nat.lt_or_ge i n with h | h
  · rw [List.getD_eq_getElem?_getD, List.getElem?_map, List.getElem?_range h]
    simp [h]
  · rw [List.getD_eq_getElem?_getD, List.getElem?_map,
      List.getElem?_eq_none (by simpa using h)]
    simp [Nat.not_lt.mpr h]

theorem getD_of_lt {α : Type} (l : List α) (i : Nat) (d : α) (h : i < l.length) :
    l.getD i d = l[i] := by
  rw [List.getD_eq_getElem?_getD, List.getElem?_eq_getElem h]
  simp

theorem getD_of_ge {α : Type} (l : List α) (i : Nat) (d : α) (h : l.length ≤ i) :
    l.getD i d = d := by
  rw [List.getD_eq_getElem?_getD, List.getElem?_eq_none h]
  simp

theorem getPix_of_lt {g : Grid} {x y : Nat} (hy : y < g.length)
    (hx : x < g[y].length) : getPix g x y = g[y][x] := by
  unfold getPix
  rw [getD_of_lt _ _ _ hy, getD_of_lt _ _ _ hx]

theorem getPix_mkGrid (W H : Nat) (f : Nat → Nat → Color) (x y : Nat) :
    getPix (mkGrid W H f) x y = if x < W ∧ y < H then f x y else black := by
  unfold getPix mkGrid
  rw [getD_map_range]
  rcases Nat.lt_or_ge y H with hy | hy
  · rw [if_pos hy, getD_map_range]
    rcases Nat.lt_or_ge x W with hx | hx
    · simp [hx, hy]
    · simp [Nat.not_lt.mpr hx]
  · rw [if_neg (Nat.not_lt.mpr hy)]
    simp [Nat.not_lt.mpr hy]

/-- Rectangular grids agreeing cell-for-cell are equal. -/
theorem grid_ext {a b : Grid} {W H : Nat} (ha : Rect a W H) (hb : Rect b W H)
    (h : ∀ x y, x < W → y < H → getPix a x y = getPix b x y) : a = b := by
  obtain ⟨haLen, haRow⟩ := ha
  obtain ⟨hbLen, hbRow⟩ := hb
  apply List.ext_getElem (by omega)
  intro j h1 h2
  have hrj : a[j].length = W := haRow _ (List.getElem_mem h1)
  have hrj' : b[j].length = W := hbRow _ (List.getElem_mem h2)
  apply List.ext_getElem (by omega)
  intro i h3 h4
  have hpix := h i j (by omega) (by omega)
  rwa [getPix_of_lt h1 h3, getPix_of_lt h2 h4] at hpix

theorem getPix_rect_default {g : Grid} {W H : Nat} (hg : Rect g W H) (x y : Nat)
    (h : ¬(x < W ∧ y < H)) : getPix g x y = black := by
  obtain ⟨hLen, hRow⟩ := hg
  unfold getPix
  rcases Nat.lt_or_ge y g.length with hy | hy
  · have hrl : g[y].length = W := hRow _ (List.getElem_mem hy)
    have hx : ¬ x < W := fun hx => h ⟨hx, by omega⟩
    rw [getD_of_lt _ _ _ hy, getD_of_ge _ _ _ (by omega)]
  · rw [getD_of_ge _ _ _ hy]
    simp

/-- C++ `class Image`: a pixel grid `data` plus the recorded dimensions `w_`, `h_`
set by the constructor (and overridden by `PadToSquare`). -/
structure Image where
  data : Grid
  w_ : Nat
  h_ : Nat
deriving DecidableEq, Repr

/-- Member `Image::width()`: `data.empty() ? 0 : data[0].size()`. -/
def Image.width (img : Image) : Nat := (img.data.getD 0 []).length

/-- Member `Image::height()`: `data.size()`. -/
def Image.height (img : Image) : Nat := img.data.length

/-- Constructor `Image(int width, int height)`: `height` rows of `width`
value-initialised (all-zero) colours, `w_ = width`, `h_ = height`. -/
def Image.ofSize (width height : Nat) : Image :=
  ⟨List.replicate height (List.replicate width black), width, height⟩

/-- The `Image` invariant every image built by the program satisfies: the
recorded dimensions `w_`/`h_` match the dimensions derived from the data,
and the data is rectangular. -/
def WellFormed (img : Image) : Prop :=
  img.w_ = img.width ∧ img.h_ = img.height ∧ Rect img.data img.width img.height

instance (img : Image) : Decidable (WellFormed img) :=
  decidable_of_iff
    (img.w_ = img.width ∧ img.h_ = img.height ∧ Rect img.data img.width img.height)
    Iff.rfl

/-- Member `Image::Resize(w, h)`: a fresh `w×h` image; each cell is copied from the
source when it lies inside the recorded `w_ × h_` area, else black.  The C++
allocates `Image trimmed(w, h)` and then assigns every cell of the loop range
exactly once, which `mkGrid` expresses cell-wise. -/
def Image.Resize (img : Image) (w h : Nat) : Image :=
  ⟨mkGrid w h (fun x y => if x < img.w_ ∧ y < img.h_ then getPix img.data x y else black),
   w, h⟩

/-- Predicate `IsPowerOfTwo`: `x > 0 && (x & (x - 1)) == 0`. -/
def IsPowerOfTwo (x : Nat) : Bool := 0 < x && x &&& (x - 1) == 0

/-- Predicate `IsValidImageSize`: square with power-of-two side. -/
def IsValidImageSize (img : Image) : Bool :=
  img.width == img.height && IsPowerOfTwo img.width

theorem isPowerOfTwo_two_pow (k : Nat) : IsPowerOfTwo (2 ^ k) = true := by
  unfold IsPowerOfTwo
  refine (Bool.and_eq_true _ _).mpr ⟨by simp, ?_⟩
  refine beq_iff_eq.mpr (Nat.eq_of_testBit_eq fun i => ?_)
  rw [Nat.testBit_and, Nat.zero_testBit]
  by_cases h : i = k
  · subst h
    simp [Nat.testBit_two_pow_sub_one]
  · simp [Nat.testBit_two_pow_of_ne (fun hk => h hk.symm)]

/-- The padding-size loop of `PadToSquare`: `while (size < m) size *= 2`.
The loop is entered with `size = 1` and doubling keeps `size ≥ 1`, so the
`1 ≤ s` guard (needed for termination of the Lean recursion) never changes
the computed value on reachable states. -/
def padLoop (s m : Nat) : Nat :=
  if 1 ≤ s ∧ s < m then padLoop (2 * s) m else s
termination_by m - s
decreasing_by omega

theorem padLoop_eq (s m : Nat) :
    padLoop s m = if 1 ≤ s ∧ s < m then padLoop (2 * s) m else s := by
  rw [padLoop]

/-- The loop `int size = 1; while (size < max(w,h)) size *= 2;`. -/
def padSize (m : Nat) : Nat := padLoop 1 m

theorem padLoop_pos (s m : Nat) (hs : 1 ≤ s) : 1 ≤ padLoop s m := by
  induction s, m using padLoop.induct with
  | case1 s m h ih => rw [padLoop_eq, if_pos h]; exact ih (by omega)
  | case2 s m h => rw [padLoop_eq, if_neg h]; exact hs

theorem padLoop_ge (s m : Nat) (hs : 1 ≤ s) : m ≤ padLoop s m := by
  induction s, m using padLoop.induct with
  | case1 s m h ih => rw [padLoop_eq, if_pos h]; exact ih (by omega)
  | case2 s m h => rw [padLoop_eq, if_neg h]; omega

theorem padLoop_pow2 (s m : Nat) (hs : ∃ a, s = 2 ^ a) :
    ∃ k, padLoop s m = 2 ^ k := by
  induction s, m using padLoop.induct with
  | case1 s m h ih =>
    rw [padLoop_eq, if_pos h]
    obtain ⟨a, rfl⟩ := hs
    exact ih ⟨a + 1, by ring⟩
  | case2 s m h => rw [padLoop_eq, if_neg h]; exact hs

theorem padLoop_min (s m j : Nat) (hs : ∃ a, s = 2 ^ a) (hle : s ≤ 2 ^ j)
    (hm : m ≤ 2 ^ j) : padLoop s m ≤ 2 ^ j := by
  induction s, m using padLoop.induct with
  | case1 s m h ih =>
    rw [padLoop_eq, if_pos h]
    obtain ⟨a, rfl⟩ := hs
    have haj : a < j := by
      by_contra hc
      have : 2 ^ j ≤ 2 ^ a := Nat.pow_le_pow_right (by norm_num) (by omega)
      omega
    refine ih ⟨a + 1, by ring⟩ ?_ hm
    calc 2 * 2 ^ a = 2 ^ (a + 1) := by ring
    _ ≤ 2 ^ j := Nat.pow_le_pow_right (by norm_num) (by omega)
  | case2 s m h => rw [padLoop_eq, if_neg h]; exact hle

theorem padSize_ge (m : Nat) : m ≤ padSize m := padLoop_ge 1 m (by norm_num)

theorem padSize_pos (m : Nat) : 1 ≤ padSize m := padLoop_pos 1 m (by norm_num)

theorem padSize_pow2 (m : Nat) : ∃ k, padSize m = 2 ^ k :=
  padLoop_pow2 1 m ⟨0, rfl⟩

theorem padSize_min (m j : Nat) (hm : m ≤ 2 ^ j) : padSize m ≤ 2 ^ j :=
  padLoop_min 1 m j ⟨0, rfl⟩ (Nat.one_le_two_pow) hm

/-- Function `PadToSquare`: computes the padded side, allocates a zero-filled
`size×size` image, copies the `w×h` source into the top-left corner, and
records the *original* dimensions in `w_`/`h_`.  The allocate-then-copy
loops assign each cell once, which `mkGrid` expresses cell-wise. -/
def PadToSquare (input : Image) : Image :=
  let h := input.height
  let w := input.width
  let size := padSize (max w h)
  ⟨mkGrid size size (fun x y => if x < w ∧ y < h then getPix input.data x y else black),
   w, h⟩

/-- C++ `QuadTree<Color>`: `QuadLeaf` holds one colour; `QuadNode` holds the four
children in constructor order NW, NE, SE, SW. -/
inductive QuadTree where
  | leaf (c : Color)
  | node (nw ne se sw : QuadTree)
deriving DecidableEq, Repr

/-- Function `isUniform(img, x, y, size, tolerance)`: every pixel of the `size×size`
region at `(x, y)` is within squared distance `tolerance²` of the region's
top-left pixel `img[y][x]`.  The C++ loops `j` over `[y, y+size)` and `i`
over `[x, x+size)` and short-circuits on the first violation; the pure
`List.all` form computes the same boolean. -/
def isUniform (img : Grid) (x y size : Nat) (tolerance : Int) : Bool :=
  let ref := getPix img x y
  (List.range size).all fun j => (List.range size).all fun i =>
    decide (distSq ref (getPix img (x + i) (y + j)) ≤ tolerance * tolerance)

theorem isUniform_iff (img : Grid) (x y size : Nat) (tol : Int) :
    isUniform img x y size tol = true ↔
      ∀ i j, i < size → j < size →
        distSq (getPix img x y) (getPix img (x + i) (y + j)) ≤ tol * tol := by
  unfold isUniform
  simp only [List.all_eq_true, List.mem_range, decide_eq_true_eq]
  exact ⟨fun h i j hi hj => h j hj i hi, fun h j hj i hi => h i j hi hj⟩

theorem isUniform_zero (img : Grid) (x y : Nat) (tol : Int) :
    isUniform img x y 0 tol = true := by
  simp [isUniform]

theorem isUniform_one (img : Grid) (x y : Nat) (tol : Int) :
    isUniform img x y 1 tol = true := by
  rw [isUniform_iff]
  intro i j hi hj
  interval_cases i
  interval_cases j
  simp [distSq_self]
  exact mul_self_nonneg tol

/-- Function `Encode(img, x, y, size)`: a leaf holding `img[y][x]` when the region is
uniform, else an internal node of the four half-size quadrant encodings in
order NW `(x, y)`, NE `(x+half, y)`, SE `(x+half, y+half)`, SW `(x, y+half)`.
The C++ `Encode` calls `isUniform` with its default `tolerance = 10`; the
tolerance is made an explicit parameter here, exactly as the spec presents
the encoder's signature (`encode(grid, x, y, size, tolerance = 10)`). -/
def Encode (img : Grid) (x y size : Nat) (tolerance : Int) : QuadTree :=
  if isUniform img x y size tolerance then .leaf (getPix img x y)
  else
    .node (Encode img x y (size / 2) tolerance)
          (Encode img (x + size / 2) y (size / 2) tolerance)
          (Encode img (x + size / 2) (y + size / 2) (size / 2) tolerance)
          (Encode img x (y + size / 2) (size / 2) tolerance)
termination_by size
decreasing_by
  all_goals
    refine Nat.div_lt_self ?_ (by norm_num)
    rcases Nat.eq_zero_or_pos size with h | h
    · subst h; simp [isUniform_zero] at *
    · exact h

theorem Encode_eq (img : Grid) (x y size : Nat) (tol : Int) :
    Encode img x y size tol =
      if isUniform img x y size tol then .leaf (getPix img x y)
      else
        .node (Encode img x y (size / 2) tol)
              (Encode img (x + size / 2) y (size / 2) tol)
              (Encode img (x + size / 2) (y + size / 2) (size / 2) tol)
              (Encode img x (y + size / 2) (size / 2) tol) := by
  rw [Encode]

/-- One row of the leaf fill of `Decode`: cells `i` with
`x ≤ i0 + i < x + size` are overwritten with `c`; `i0` tracks the index of
the head of the suffix being processed. -/
def fillRow (x size : Nat) (c : Color) : Nat → List Color → List Color
  | _, [] => []
  | i, p :: rest =>
      (if x ≤ i ∧ i < x + size then c else p) :: fillRow x size c (i + 1) rest

/-- The leaf fill loop of `Decode`: rows `j` with `y ≤ j0 + j < y + size` get
their `[x, x+size)` cells overwritten with `c`. -/
def fillRows (x y size : Nat) (c : Color) : Nat → Grid → Grid
  | _, [] => []
  | j, row :: rest =>
      (if y ≤ j ∧ j < y + size then fillRow x size c 0 row else row) ::
        fillRows x y size c (j + 1) rest

/-- The loops `for (j = y; j < y+size; ++j) for (i = x; i < x+size; ++i) img[j][i] = c;`
(only cells that exist in the grid are written; in C++ a write outside the
allocated grid would be undefined behaviour). -/
def fillRegion (img : Grid) (x y size : Nat) (c : Color) : Grid :=
  fillRows x y size c 0 img

/-- Function `Decode(img, node, x, y, size)`: a leaf fills its region with its colour;
an internal node decodes its children into the four quadrants in source
order NW, NE, SE, SW, each with `half = size / 2`. -/
def Decode (img : Grid) (t : QuadTree) (x y size : Nat) : Grid :=
  match t with
  | .leaf c => fillRegion img x y size c
  | .node nw ne se sw =>
      let half := size / 2
      let i1 := Decode img nw x y half
      let i2 := Decode i1 ne (x + half) y half
      let i3 := Decode i2 se (x + half) (y + half) half
      Decode i3 sw x (y + half) half

theorem fillRow_length (x size : Nat) (c : Color) (i0 : Nat) (row : List Color) :
    (fillRow x size c i0 row).length = row.length := by
  induction row generalizing i0 with
  | nil => rfl
  | cons p rest ih => simp [fillRow, ih]

theorem fillRow_getD (x size : Nat) (c : Color) (i0 : Nat) (row : List Color) (i : Nat) :
    (fillRow x size c i0 row).getD i black =
      if i < row.length ∧ x ≤ i0 + i ∧ i0 + i < x + size then c
      else row.getD i black := by
  induction row generalizing i0 i with
  | nil => simp [fillRow]
  | cons p rest ih =>
    cases i with
    | zero =>
      simp only [fillRow, List.getD_cons_zero, List.length_cons]
      by_cases h : x ≤ i0 ∧ i0 < x + size
      · rw [if_pos h, if_pos (by omega)]
      · rw [if_neg h, if_neg (by omega)]
    | succ n =>
      simp only [fillRow, List.getD_cons_succ, List.length_cons]
      rw [ih (i0 + 1) n]
      by_cases h : n < rest.length ∧ x ≤ i0 + 1 + n ∧ i0 + 1 + n < x + size
      · rw [if_pos h, if_pos (by omega)]
      · rw [if_neg h, if_neg (by omega)]

theorem fillRows_length (x y size : Nat) (c : Color) (j0 : Nat) (g : Grid) :
    (fillRows x y size c j0 g).length = g.length := by
  induction g generalizing j0 with
  | nil => rfl
  | cons row rest ih => simp [fillRows, ih]

theorem fillRows_getD (x y size : Nat) (c : Color) (j0 : Nat) (g : Grid) (j : Nat) :
    (fillRows x y size c j0 g).getD j [] =
      if j < g.length ∧ y ≤ j0 + j ∧ j0 + j < y + size then
        fillRow x size c 0 (g.getD j [])
      else g.getD j [] := by
  induction g generalizing j0 j with
  | nil => simp [fillRows]
  | cons row rest ih =>
    cases j with
    | zero =>
      simp only [fillRows, List.getD_cons_zero, List.length_cons]
      by_cases h : y ≤ j0 ∧ j0 < y + size
      · rw [if_pos h, if_pos (by omega)]
      · rw [if_neg h, if_neg (by omega)]
    | succ n =>
      simp only [fillRows, List.getD_cons_succ, List.length_cons]
      rw [ih (j0 + 1) n]
      by_cases h : n < rest.length ∧ y ≤ j0 + 1 + n ∧ j0 + 1 + n < y + size
      · rw [if_pos h, if_pos (by omega)]
      · rw [if_neg h, if_neg (by omega)]

theorem getPix_fillRegion (img : Grid) (x y size : Nat) (c : Color) (i j : Nat) :
    getPix (fillRegion img x y size c) i j =
      if j < img.length ∧ i < (img.getD j []).length ∧
          x ≤ i ∧ i < x + size ∧ y ≤ j ∧ j < y + size then c
      else getPix img i j := by
  unfold fillRegion getPix
  rw [fillRows_getD]
  by_cases hj : j < img.length ∧ y ≤ j ∧ j < y + size
  · rw [if_pos (by omega)]
    rw [fillRow_getD]
    by_cases hi : i < (img.getD j []).length ∧ x ≤ i ∧ i < x + size
    · rw [if_pos (by omega), if_pos (by omega)]
    · rw [if_neg (by omega), if_neg (by omega)]
  · rw [if_neg (by omega), if_neg (by omega)]

theorem fillRows_mem {x y size : Nat} {c : Color} {j0 : Nat} {g : Grid}
    {row : List Color} (h : row ∈ fillRows x y size c j0 g) :
    ∃ r ∈ g, row.length = r.length := by
  induction g generalizing j0 with
  | nil => simp [fillRows] at h
  | cons r rest ih =>
    simp only [fillRows, List.mem_cons] at h
    rcases h with h1 | h2
    · refine ⟨r, by simp, ?_⟩
      subst h1
      by_cases hc : y ≤ j0 ∧ j0 < y + size
      · rw [if_pos hc, fillRow_length]
      · rw [if_neg hc]
    · obtain ⟨r', hr', hl⟩ := ih h2
      exact ⟨r', by simp [hr'], hl⟩

theorem fillRegion_rect {img : Grid} {W H : Nat} (h : Rect img W H)
    (x y size : Nat) (c : Color) : Rect (fillRegion img x y size c) W H := by
  obtain ⟨hLen, hRow⟩ := h
  constructor
  · rw [fillRegion, fillRows_length, hLen]
  · intro row hrow
    obtain ⟨r, hr, hl⟩ := fillRows_mem hrow
    rw [hl]
    exact hRow r hr

theorem Decode_rect {img : Grid} {W H : Nat} (h : Rect img W H)
    (t : QuadTree) (x y size : Nat) : Rect (Decode img t x y size) W H := by
  induction t generalizing img x y size with
  | leaf c => exact fillRegion_rect h x y size c
  | node nw ne se sw ihnw ihne ihse ihsw =>
    exact ihsw (ihse (ihne (ihnw h _ _ _) _ _ _) _ _ _) _ _ _

/-- Frame property of the leaf fill: a cell outside the region keeps its
value. -/
theorem getPix_fillRegion_outside (img : Grid) (x y size : Nat) (c : Color)
    (i j : Nat) (h : i < x ∨ x + size ≤ i ∨ j < y ∨ y + size ≤ j) :
    getPix (fillRegion img x y size c) i j = getPix img i j := by
  rw [getPix_fillRegion, if_neg (by omega)]

/-- Frame property of `Decode`: a cell outside the decoded region keeps its
value (quadrant regions are contained in the parent region since
`2 * (size / 2) ≤ size`). -/
theorem Decode_frame (t : QuadTree) (img : Grid) (x y size : Nat) (i j : Nat)
    (h : i < x ∨ x + size ≤ i ∨ j < y ∨ y + size ≤ j) :
    getPix (Decode img t x y size) i j = getPix img i j := by
  induction t generalizing img x y size with
  | leaf c => exact getPix_fillRegion_outside img x y size c i j h
  | node nw ne se sw ihnw ihne ihse ihsw =>
    have hhalf : 2 * (size / 2) ≤ size := by omega
    simp only [Decode]
    rw [ihsw _ _ _ _ (by omega), ihse _ _ _ _ (by omega),
        ihne _ _ _ _ (by omega), ihnw _ _ _ _ (by omega)]

theorem rect_getD_length {g : Grid} {W H : Nat} (h : Rect g W H) {j : Nat}
    (hj : j < H) : (g.getD j []).length = W := by
  obtain ⟨hLen, hRow⟩ := h
  rw [getD_of_lt _ _ _ (by omega)]
  exact hRow _ (List.getElem_mem (by omega))

/-- A cell of a region whose uniformity test passed is, after the leaf fill
with the region's reference colour, within `tolerance²` of the source. -/
theorem decode_leaf_bound (img target : Grid) {W H x y size : Nat} (tol : Int)
    (hrect : Rect target W H) (hxW : x + size ≤ W) (hyH : y + size ≤ H)
    (huni : isUniform img x y size tol = true)
    (i j : Nat) (hi1 : x ≤ i) (hi2 : i < x + size) (hj1 : y ≤ j)
    (hj2 : j < y + size) :
    distSq (getPix img i j)
      (getPix (fillRegion target x y size (getPix img x y)) i j) ≤ tol * tol := by
  rw [getPix_fillRegion, if_pos]
  · have h := (isUniform_iff img x y size tol).mp huni (i - x) (j - y)
      (by omega) (by omega)
    rw [Nat.add_sub_cancel' hi1, Nat.add_sub_cancel' hj1] at h
    rw [distSq_comm]
    exact h
  · refine ⟨?_, ?_, hi1, hi2, hj1, hj2⟩
    · obtain ⟨hLen, _⟩ := hrect; omega
    · rw [rect_getD_length hrect (by omega)]; omega

/-- Round-trip tolerance bound over a power-of-two region: each cell of the
decoded region is within squared distance `tolerance²` of the source cell. -/
theorem decode_encode_bound (img : Grid) (tol : Int) (k : Nat) :
    ∀ (x y : Nat) (target : Grid) (W H : Nat), Rect target W H →
      x + 2 ^ k ≤ W → y + 2 ^ k ≤ H →
      ∀ i j, x ≤ i → i < x + 2 ^ k → y ≤ j → j < y + 2 ^ k →
        distSq (getPix img i j)
          (getPix (Decode target (Encode img x y (2 ^ k) tol) x y (2 ^ k)) i j)
          ≤ tol * tol := by
  induction k with
  | zero =>
    intro x y target W H hrect hxW hyH i j hi1 hi2 hj1 hj2
    simp only [pow_zero] at *
    rw [Encode_eq, if_pos (isUniform_one img x y tol)]
    exact decode_leaf_bound img target tol hrect hxW hyH
      (isUniform_one img x y tol) i j hi1 hi2 hj1 hj2
  | succ k ih =>
    intro x y target W H hrect hxW hyH i j hi1 hi2 hj1 hj2
    have hpow : 2 ^ (k + 1) = 2 ^ k + 2 ^ k := by rw [pow_succ]; omega
    have h2 : 2 ^ (k + 1) / 2 = 2 ^ k := by rw [pow_succ]; omega
    rw [Encode_eq]
    by_cases huni : isUniform img x y (2 ^ (k + 1)) tol = true
    · rw [if_pos huni]
      exact decode_leaf_bound img target tol hrect hxW hyH huni i j hi1 hi2 hj1 hj2
    · rw [if_neg huni]
      simp only [Decode, h2]
      rcases Nat.lt_or_ge i (x + 2 ^ k) with hiL | hiR <;>
        rcases Nat.lt_or_ge j (y + 2 ^ k) with hjT | hjB
      · -- NW quadrant
        rw [Decode_frame _ _ _ _ _ i j (by omega),
            Decode_frame _ _ _ _ _ i j (by omega),
            Decode_frame _ _ _ _ _ i j (by omega)]
        exact ih x y target W H hrect (by omega) (by omega) i j
          (by omega) (by omega) (by omega) (by omega)
      · -- SW quadrant
        exact ih x (y + 2 ^ k)
          (Decode (Decode (Decode target _ x y (2 ^ k)) _ (x + 2 ^ k) y (2 ^ k))
            _ (x + 2 ^ k) (y + 2 ^ k) (2 ^ k)) W H
          (Decode_rect (Decode_rect (Decode_rect hrect _ _ _ _) _ _ _ _) _ _ _ _)
          (by omega) (by omega) i j (by omega) (by omega) (by omega) (by omega)
      · -- NE quadrant
        rw [Decode_frame _ _ _ _ _ i j (by omega),
            Decode_frame _ _ _ _ _ i j (by omega)]
        exact ih (x + 2 ^ k) y (Decode target _ x y (2 ^ k)) W H
          (Decode_rect hrect _ _ _ _) (by omega) (by omega) i j
          (by omega) (by omega) (by omega) (by omega)
      · -- SE quadrant
        rw [Decode_frame _ _ _ _ _ i j (by omega)]
        exact ih (x + 2 ^ k) (y + 2 ^ k)
          (Decode (Decode target _ x y (2 ^ k)) _ (x + 2 ^ k) y (2 ^ k)) W H
          (Decode_rect (Decode_rect hrect _ _ _ _) _ _ _ _)
          (by omega) (by omega) i j (by omega) (by omega) (by omega) (by omega)

theorem Encode_one (img : Grid) (x y : Nat) (tol : Int) :
    Encode img x y 1 tol = QuadTree.leaf (getPix img x y) := by
  rw [Encode_eq, if_pos (isUniform_one img x y tol)]

/-- Height of a quadtree: number of subdivision levels below the node. -/
def depth : QuadTree → Nat
  | .leaf _ => 0
  | .node a b c d => 1 + max (max (depth a) (depth b)) (max (depth c) (depth d))

/-- Number of internal nodes of a quadtree. -/
def countInternal : QuadTree → Nat
  | .leaf _ => 0
  | .node a b c d =>
      1 + countInternal a + countInternal b + countInternal c + countInternal d

/-- Side length of the leaf region that contains pixel `(px, py)` when the
tree decomposes the `size×size` region at `(x, y)` with the decoder's
quadrant offsets (NW, NE, SE, SW). -/
def leafSize (t : QuadTree) (x y size px py : Nat) : Nat :=
  match t with
  | .leaf _ => size
  | .node a b c d =>
      let half := size / 2
      if px < x + half then
        if py < y + half then leafSize a x y half px py
        else leafSize d x (y + half) half px py
      else
        if py < y + half then leafSize b (x + half) y half px py
        else leafSize c (x + half) (y + half) half px py

/-- A region of the grid that avoids the single differing pixel is uniform
at tolerance 0: every cell, the reference included, holds the base colour. -/
theorem isUniform_const (g : Grid) (N : Nat) (base : Color) (px py : Nat)
    (hbase : ∀ i j, i < N → j < N → ¬(i = px ∧ j = py) → getPix g i j = base)
    (x y s : Nat) (hxN : x + s ≤ N) (hyN : y + s ≤ N)
    (hexcl : px < x ∨ x + s ≤ px ∨ py < y ∨ y + s ≤ py) :
    isUniform g x y s 0 = true := by
  rcases Nat.eq_zero_or_pos s with hs | hs
  · subst hs; exact isUniform_zero g x y 0
  · rw [isUniform_iff]
    intro i j hi hj
    have href : getPix g x y = base := hbase x y (by omega) (by omega) (by omega)
    have hcell : getPix g (x + i) (y + j) = base :=
      hbase (x + i) (y + j) (by omega) (by omega) (by omega)
    rw [href, hcell, distSq_self]
    norm_num

/-- Structure of the tolerance-0 encoding of a region that contains exactly
one pixel differing from an otherwise constant grid: the tree is a chain of
`m` internal nodes (so `depth = m` and every off-path child is a leaf) and
the differing pixel ends in a leaf of side 1. -/
theorem encode_single_aux (g : Grid) (N : Nat) (base diff : Color) (px py : Nat)
    (hne : diff ≠ base)
    (hbase : ∀ i j, i < N → j < N → ¬(i = px ∧ j = py) → getPix g i j = base)
    (hdiff : getPix g px py = diff) :
    ∀ (m x y : Nat), x + 2 ^ m ≤ N → y + 2 ^ m ≤ N →
      x ≤ px → px < x + 2 ^ m → y ≤ py → py < y + 2 ^ m →
      depth (Encode g x y (2 ^ m) 0) = m ∧
      countInternal (Encode g x y (2 ^ m) 0) = m ∧
      leafSize (Encode g x y (2 ^ m) 0) x y (2 ^ m) px py = 1 := by
  intro m
  induction m with
  | zero =>
    intro x y hxN hyN h1 h2 h3 h4
    simp only [pow_zero] at *
    rw [Encode_one]
    exact ⟨rfl, rfl, rfl⟩
  | succ m ih =>
    intro x y hxN hyN h1 h2 h3 h4
    have hpow : 2 ^ (m + 1) = 2 ^ m + 2 ^ m := by rw [pow_succ]; omega
    have h2div : 2 ^ (m + 1) / 2 = 2 ^ m := by rw [pow_succ]; omega
    have hppos : 0 < 2 ^ m := Nat.pos_pow_of_pos m (by norm_num)
    have huni : ¬ (isUniform g x y (2 ^ (m + 1)) 0 = true) := by
      intro hu
      have hiff := (isUniform_iff g x y (2 ^ (m + 1)) 0).mp hu
      by_cases hc : x = px ∧ y = py
      · obtain ⟨hcx, hcy⟩ := hc
        have hb : getPix g (x + 1) (y + 0) = base :=
          hbase _ _ (by omega) (by omega) (by omega)
        have hthis := hiff 1 0 (by omega) (by omega)
        rw [hb] at hthis
        have hr : getPix g x y = diff := by rw [hcx, hcy]; exact hdiff
        rw [hr] at hthis
        have h0 : distSq diff base = 0 :=
          le_antisymm (by simpa using hthis) (distSq_nonneg _ _)
        exact hne ((distSq_eq_zero_iff diff base).mp h0)
      · have hr : getPix g x y = base := hbase x y (by omega) (by omega) hc
        have hthis := hiff (px - x) (py - y) (by omega) (by omega)
        rw [Nat.add_sub_cancel' h1, Nat.add_sub_cancel' h3, hr, hdiff] at hthis
        have h0 : distSq base diff = 0 :=
          le_antisymm (by simpa using hthis) (distSq_nonneg _ _)
        exact hne ((distSq_eq_zero_iff base diff).mp h0).symm
    have mkLeaf : ∀ x' y', x' + 2 ^ m ≤ N → y' + 2 ^ m ≤ N →
        (px < x' ∨ x' + 2 ^ m ≤ px ∨ py < y' ∨ y' + 2 ^ m ≤ py) →
        Encode g x' y' (2 ^ m) 0 = .leaf (getPix g x' y') := by
      intro x' y' hx' hy' hex
      rw [Encode_eq,
        if_pos (isUniform_const g N base px py hbase x' y' (2 ^ m) hx' hy' hex)]
    rw [Encode_eq, if_neg huni, h2div]
    rcases Nat.lt_or_ge px (x + 2 ^ m) with hpxL | hpxR <;>
      rcases Nat.lt_or_ge py (y + 2 ^ m) with hpyT | hpyB
    · -- pixel in NW quadrant
      have hQ := ih x y (by omega) (by omega) h1 (by omega) h3 (by omega)
      rw [mkLeaf (x + 2 ^ m) y (by omega) (by omega) (by omega),
          mkLeaf (x + 2 ^ m) (y + 2 ^ m) (by omega) (by omega) (by omega),
          mkLeaf x (y + 2 ^ m) (by omega) (by omega) (by omega)]
      refine ⟨?_, ?_, ?_⟩
      · simp only [depth]
        rw [hQ.1]
        omega
      · simp only [countInternal]
        rw [hQ.2.1]
        omega
      · simp only [leafSize, h2div]
        rw [if_pos hpxL, if_pos hpyT]
        exact hQ.2.2
    · -- pixel in SW quadrant
      have hQ := ih x (y + 2 ^ m) (by omega) (by omega) h1 (by omega) (by omega) (by omega)
      rw [mkLeaf x y (by omega) (by omega) (by omega),
          mkLeaf (x + 2 ^ m) y (by omega) (by omega) (by omega),
          mkLeaf (x + 2 ^ m) (y + 2 ^ m) (by omega) (by omega) (by omega)]
      refine ⟨?_, ?_, ?_⟩
      · simp only [depth]
        rw [hQ.1]
        omega
      · simp only [countInternal]
        rw [hQ.2.1]
        omega
      · simp only [leafSize, h2div]
        rw [if_pos hpxL, if_neg (by omega)]
        exact hQ.2.2
    · -- pixel in NE quadrant
      have hQ := ih (x + 2 ^ m) y (by omega) (by omega) (by omega) (by omega) h3 (by omega)
      rw [mkLeaf x y (by omega) (by omega) (by omega),
          mkLeaf (x + 2 ^ m) (y + 2 ^ m) (by omega) (by omega) (by omega),
          mkLeaf x (y + 2 ^ m) (by omega) (by omega) (by omega)]
      refine ⟨?_, ?_, ?_⟩
      · simp only [depth]
        rw [hQ.1]
        omega
      · simp only [countInternal]
        rw [hQ.2.1]
        omega
      · simp only [leafSize, h2div]
        rw [if_neg (by omega), if_pos hpyT]
        exact hQ.2.2
    · -- pixel in SE quadrant
      have hQ := ih (x + 2 ^ m) (y + 2 ^ m) (by omega) (by omega) (by omega)
        (by omega) (by omega) (by omega)
      rw [mkLeaf x y (by omega) (by omega) (by omega),
          mkLeaf (x + 2 ^ m) y (by omega) (by omega) (by omega),
          mkLeaf x (y + 2 ^ m) (by omega) (by omega) (by omega)]
      refine ⟨?_, ?_, ?_⟩
      · simp only [depth]
        rw [hQ.1]
        omega
      · simp only [countInternal]
        rw [hQ.2.1]
        omega
      · simp only [leafSize, h2div]
        rw [if_neg (by omega), if_neg (by omega)]
        exact hQ.2.2

/-- The value `Decode` leaves in a cell of the decoded region never depends
on the target's prior contents: for two same-shaped targets, each region
cell is either written with the same tree-determined colour in both, or
left untouched in both. -/
theorem decode_indep (t : QuadTree) :
    ∀ (x y size : Nat) (t1 t2 : Grid) (W H : Nat), Rect t1 W H → Rect t2 W H →
      ∀ i j, x ≤ i → i < x + size → y ≤ j → j < y + size →
        getPix (Decode t1 t x y size) i j = getPix (Decode t2 t x y size) i j ∨
        (getPix (Decode t1 t x y size) i j = getPix t1 i j ∧
         getPix (Decode t2 t x y size) i j = getPix t2 i j) := by
  induction t with
  | leaf c =>
    intro x y size t1 t2 W H h1 h2 i j hi1 hi2 hj1 hj2
    have hl1 : t1.length = H := h1.1
    have hl2 : t2.length = H := h2.1
    simp only [Decode]
    rw [getPix_fillRegion, getPix_fillRegion]
    by_cases hj : j < H
    · have e1 : (t1.getD j []).length = W := rect_getD_length h1 hj
      have e2 : (t2.getD j []).length = W := rect_getD_length h2 hj
      by_cases hi : i < W
      · rw [if_pos (by omega), if_pos (by omega)]
        exact Or.inl rfl
      · rw [if_neg (by omega), if_neg (by omega)]
        exact Or.inr ⟨rfl, rfl⟩
    · rw [if_neg (by omega), if_neg (by omega)]
      exact Or.inr ⟨rfl, rfl⟩
  | node a b c d iha ihb ihc ihd =>
    intro x y size t1 t2 W H h1 h2 i j hi1 hi2 hj1 hj2
    simp only [Decode]
    by_cases hout : x + 2 * (size / 2) ≤ i ∨ y + 2 * (size / 2) ≤ j
    · refine Or.inr ⟨?_, ?_⟩
      · rw [Decode_frame d _ x (y + size / 2) (size / 2) i j (by omega),
            Decode_frame c _ (x + size / 2) (y + size / 2) (size / 2) i j (by omega),
            Decode_frame b _ (x + size / 2) y (size / 2) i j (by omega),
            Decode_frame a _ x y (size / 2) i j (by omega)]
      · rw [Decode_frame d _ x (y + size / 2) (size / 2) i j (by omega),
            Decode_frame c _ (x + size / 2) (y + size / 2) (size / 2) i j (by omega),
            Decode_frame b _ (x + size / 2) y (size / 2) i j (by omega),
            Decode_frame a _ x y (size / 2) i j (by omega)]
    · push_neg at hout
      rcases Nat.lt_or_ge i (x + size / 2) with hiL | hiR <;>
        rcases Nat.lt_or_ge j (y + size / 2) with hjT | hjB
      · -- cell in NW quadrant
        rw [Decode_frame d _ x (y + size / 2) (size / 2) i j (by omega),
            Decode_frame d _ x (y + size / 2) (size / 2) i j (by omega),
            Decode_frame c _ (x + size / 2) (y + size / 2) (size / 2) i j (by omega),
            Decode_frame c _ (x + size / 2) (y + size / 2) (size / 2) i j (by omega),
            Decode_frame b _ (x + size / 2) y (size / 2) i j (by omega),
            Decode_frame b _ (x + size / 2) y (size / 2) i j (by omega)]
        exact iha x y (size / 2) t1 t2 W H h1 h2 i j hi1 hiL hj1 hjT
      · -- cell in SW quadrant
        rcases ihd x (y + size / 2) (size / 2)
            (Decode (Decode (Decode t1 a x y (size / 2)) b (x + size / 2) y (size / 2))
              c (x + size / 2) (y + size / 2) (size / 2))
            (Decode (Decode (Decode t2 a x y (size / 2)) b (x + size / 2) y (size / 2))
              c (x + size / 2) (y + size / 2) (size / 2)) W H
            (Decode_rect (Decode_rect (Decode_rect h1 _ _ _ _) _ _ _ _) _ _ _ _)
            (Decode_rect (Decode_rect (Decode_rect h2 _ _ _ _) _ _ _ _) _ _ _ _)
            i j hi1 (by omega) hjB (by omega) with hl | ⟨e1, e2⟩
        · exact Or.inl hl
        · refine Or.inr ⟨?_, ?_⟩
          · rw [e1, Decode_frame c _ (x + size / 2) (y + size / 2) (size / 2) i j (by omega),
              Decode_frame b _ (x + size / 2) y (size / 2) i j (by omega),
              Decode_frame a _ x y (size / 2) i j (by omega)]
          · rw [e2, Decode_frame c _ (x + size / 2) (y + size / 2) (size / 2) i j (by omega),
              Decode_frame b _ (x + size / 2) y (size / 2) i j (by omega),
              Decode_frame a _ x y (size / 2) i j (by omega)]
      · -- cell in NE quadrant
        rw [Decode_frame d _ x (y + size / 2) (size / 2) i j (by omega),
            Decode_frame d _ x (y + size / 2) (size / 2) i j (by omega),
            Decode_frame c _ (x + size / 2) (y + size / 2) (size / 2) i j (by omega),
            Decode_frame c _ (x + size / 2) (y + size / 2) (size / 2) i j (by omega)]
        rcases ihb (x + size / 2) y (size / 2)
            (Decode t1 a x y (size / 2)) (Decode t2 a x y (size / 2)) W H
            (Decode_rect h1 _ _ _ _) (Decode_rect h2 _ _ _ _)
            i j hiR (by omega) hj1 hjT with hl | ⟨e1, e2⟩
        · exact Or.inl hl
        · refine Or.inr ⟨?_, ?_⟩
          · rw [e1, Decode_frame a _ x y (size / 2) i j (by omega)]
          · rw [e2, Decode_frame a _ x y (size / 2) i j (by omega)]
      · -- cell in SE quadrant
        rw [Decode_frame d _ x (y + size / 2) (size / 2) i j (by omega),
            Decode_frame d _ x (y + size / 2) (size / 2) i j (by omega)]
        rcases ihc (x + size / 2) (y + size / 2) (size / 2)
            (Decode (Decode t1 a x y (size / 2)) b (x + size / 2) y (size / 2))
            (Decode (Decode t2 a x y (size / 2)) b (x + size / 2) y (size / 2)) W H
            (Decode_rect (Decode_rect h1 _ _ _ _) _ _ _ _)
            (Decode_rect (Decode_rect h2 _ _ _ _) _ _ _ _)
            i j hiR (by omega) hjB (by omega) with hl | ⟨e1, e2⟩
        · exact Or.inl hl
        · refine Or.inr ⟨?_, ?_⟩
          · rw [e1, Decode_frame b _ (x + size / 2) y (size / 2) i j (by omega),
              Decode_frame a _ x y (size / 2) i j (by omega)]
          · rw [e2, Decode_frame b _ (x + size / 2) y (size / 2) i j (by omega),
              Decode_frame a _ x y (size / 2) i j (by omega)]

/-- C1: for every square grid `G` whose side is a power of two, decoding the
tree produced by encoding `G` (with the encoder's tolerance) into a
same-sided target grid yields a grid in which every pixel's squared colour
distance from the corresponding pixel of `G` is at most `tolerance²`. -/
theorem encode_decode_tolerance_bound (G target : Grid) (k : Nat) (tol : Int)
    (hG : Rect G (2 ^ k) (2 ^ k)) (htarget : Rect target (2 ^ k) (2 ^ k))
    (i j : Nat) (hi : i < 2 ^ k) (hj : j < 2 ^ k) :
    distSq (getPix G i j)
      (getPix (Decode target (Encode G 0 0 (2 ^ k) tol) 0 0 (2 ^ k)) i j)
      ≤ tol * tol :=
  decode_encode_bound G tol k 0 0 target (2 ^ k) (2 ^ k) htarget (by omega)
    (by omega) i j (by omega) (by omega) (by omega) (by omega)

theorem encode_decode_tolerance_bound_witness :
    Rect ([[⟨255, 0, 0⟩, ⟨0, 0, 255⟩], [⟨0, 255, 0⟩, ⟨20, 20, 20⟩]] : Grid)
        (2 ^ 1) (2 ^ 1) ∧
    Rect ([[⟨1, 2, 3⟩, ⟨4, 5, 6⟩], [⟨7, 8, 9⟩, ⟨3, 3, 3⟩]] : Grid) (2 ^ 1) (2 ^ 1) ∧
    distSq (getPix [[⟨255, 0, 0⟩, ⟨0, 0, 255⟩], [⟨0, 255, 0⟩, ⟨20, 20, 20⟩]] 0 0)
      (getPix
        (Decode [[⟨1, 2, 3⟩, ⟨4, 5, 6⟩], [⟨7, 8, 9⟩, ⟨3, 3, 3⟩]]
          (Encode [[⟨255, 0, 0⟩, ⟨0, 0, 255⟩], [⟨0, 255, 0⟩, ⟨20, 20, 20⟩]]
            0 0 (2 ^ 1) 10) 0 0 (2 ^ 1)) 0 0) ≤ 10 * 10 :=
  ⟨by decide, by decide,
    encode_decode_tolerance_bound _ _ 1 10 (by decide) (by decide) 0 0
      (by decide) (by decide)⟩

/-- C2: for every square grid `G` whose side is a power of two, encoding `G`
with tolerance 0 and decoding the tree into a target grid of the same side
reproduces `G` exactly. -/
theorem encode_decode_exact_roundtrip (G target : Grid) (k : Nat)
    (hG : Rect G (2 ^ k) (2 ^ k)) (htarget : Rect target (2 ^ k) (2 ^ k)) :
    Decode target (Encode G 0 0 (2 ^ k) 0) 0 0 (2 ^ k) = G := by
  apply grid_ext (Decode_rect htarget _ _ _ _) hG
  intro x y hx hy
  have h := decode_encode_bound G 0 k 0 0 target (2 ^ k) (2 ^ k) htarget
    (by omega) (by omega) x y (by omega) (by omega) (by omega) (by omega)
  have h0 :
      distSq (getPix G x y)
        (getPix (Decode target (Encode G 0 0 (2 ^ k) 0) 0 0 (2 ^ k)) x y) = 0 :=
    le_antisymm (by simpa using h) (distSq_nonneg _ _)
  exact ((distSq_eq_zero_iff _ _).mp h0).symm

theorem encode_decode_exact_roundtrip_witness :
    Rect ([[⟨0, 0, 0⟩, ⟨10, 0, 0⟩], [⟨0, 20, 0⟩, ⟨0, 0, 30⟩]] : Grid) (2 ^ 1) (2 ^ 1) ∧
    Rect ([[⟨9, 9, 9⟩, ⟨9, 9, 9⟩], [⟨9, 9, 9⟩, ⟨9, 9, 9⟩]] : Grid) (2 ^ 1) (2 ^ 1) ∧
    Decode [[⟨9, 9, 9⟩, ⟨9, 9, 9⟩], [⟨9, 9, 9⟩, ⟨9, 9, 9⟩]]
        (Encode [[⟨0, 0, 0⟩, ⟨10, 0, 0⟩], [⟨0, 20, 0⟩, ⟨0, 0, 30⟩]] 0 0 (2 ^ 1) 0)
        0 0 (2 ^ 1) =
      [[⟨0, 0, 0⟩, ⟨10, 0, 0⟩], [⟨0, 20, 0⟩, ⟨0, 0, 30⟩]] :=
  ⟨by decide, by decide,
    encode_decode_exact_roundtrip _ _ 1 (by decide) (by decide)⟩

/-- C3: `Encode` returns a leaf holding the region's top-left pixel
`grid[y][x]` exactly when every pixel of the `size×size` region at `(x, y)`
is within squared distance `tolerance²` of it; otherwise it returns an
internal node whose four children encode, with `half = size / 2`, the
quadrants at `(x, y)`, `(x+half, y)`, `(x+half, y+half)`, `(x, y+half)`, in
exactly the order NW, NE, SE, SW. -/
theorem encode_leaf_iff_uniform (img : Grid) (x y size : Nat) (tol : Int) :
    Encode img x y size tol =
      if ∀ i < size, ∀ j < size,
          distSq (getPix img x y) (getPix img (x + i) (y + j)) ≤ tol * tol
      then QuadTree.leaf (getPix img x y)
      else
        QuadTree.node (Encode img x y (size / 2) tol)
          (Encode img (x + size / 2) y (size / 2) tol)
          (Encode img (x + size / 2) (y + size / 2) (size / 2) tol)
          (Encode img x (y + size / 2) (size / 2) tol) := by
  rw [Encode_eq]
  by_cases h : isUniform img x y size tol = true
  · rw [if_pos h,
      if_pos (fun i hi j hj => (isUniform_iff img x y size tol).mp h i j hi hj)]
  · rw [if_neg h,
      if_neg (fun hc =>
        h ((isUniform_iff img x y size tol).mpr fun i j hi hj => hc i hi j hj))]

theorem Image.ext' {a b : Image} (hd : a.data = b.data) (hw : a.w_ = b.w_)
    (hh : a.h_ = b.h_) : a = b := by
  cases a; cases b; simp_all

theorem padSize_eq_of_pow2 {m : Nat} (h : ∃ j, m = 2 ^ j) : padSize m = m := by
  obtain ⟨j, rfl⟩ := h
  exact le_antisymm (padSize_min _ j le_rfl) (padSize_ge _)

theorem padToSquare_data (G : Image) :
    (PadToSquare G).data =
      mkGrid (padSize (max G.width G.height)) (padSize (max G.width G.height))
        (fun x y => if x < G.width ∧ y < G.height then getPix G.data x y
          else black) := rfl

theorem padToSquare_w (G : Image) : (PadToSquare G).w_ = G.width := rfl

theorem padToSquare_h (G : Image) : (PadToSquare G).h_ = G.height := rfl

theorem resize_data (img : Image) (w h : Nat) :
    (img.Resize w h).data =
      mkGrid w h (fun x y =>
        if x < img.w_ ∧ y < img.h_ then getPix img.data x y else black) := rfl

theorem resize_w (img : Image) (w h : Nat) : (img.Resize w h).w_ = w := rfl

theorem resize_h (img : Image) (w h : Nat) : (img.Resize w h).h_ = h := rfl

theorem padToSquare_valid (G : Image) :
    IsValidImageSize (PadToSquare G) = true := by
  have hpos : 1 ≤ padSize (max G.width G.height) := padSize_pos _
  have hwidth : (PadToSquare G).width = padSize (max G.width G.height) := by
    rw [Image.width, padToSquare_data]
    unfold mkGrid
    rw [getD_map_range, if_pos (by omega)]
    simp
  have hheight : (PadToSquare G).height = padSize (max G.width G.height) := by
    rw [Image.height, padToSquare_data]
    simp [mkGrid]
  rw [IsValidImageSize, hwidth, hheight]
  obtain ⟨k, hk⟩ := padSize_pow2 (max G.width G.height)
  rw [hk]
  simp [isPowerOfTwo_two_pow]

/-- C4 (amended): `Encode` and `Decode` themselves perform no size
validation — called with a non-power-of-two size they proceed and cover only
the quadrant-reachable part of the region (see the counterexample).  The
validity guarantee lives in the caller instead: the grid `ProcessImg` hands
to `Encode` — the input itself when `IsValidImageSize` holds, else its
`PadToSquare` padding — always satisfies `IsValidImageSize`. -/
theorem caller_validates_before_encode (img : Image) :
    IsValidImageSize (if IsValidImageSize img then img else PadToSquare img)
      = true := by
  by_cases h : IsValidImageSize img = true
  · rw [if_pos h]; exact h
  · rw [if_neg h]; exact padToSquare_valid img

/-- C4 counterexample: called with size 3 (not a power of two) on a
non-uniform 3×3 grid, `Encode` signals no error — it returns an internal
node — and decoding the resulting tree into a 3×3 target leaves cell (2, 2)
at its prior value `(7,7,7)`, different from the source pixel: the
traversal proceeds and silently truncates instead of failing. -/
theorem encode_no_size_validation_cx :
    Encode [[black, black, black], [black, black, black],
        [black, black, ⟨255, 255, 255⟩]] 0 0 3 10 =
      QuadTree.node (.leaf black) (.leaf black) (.leaf black) (.leaf black) ∧
    getPix
      (Decode
        [[⟨7, 7, 7⟩, ⟨7, 7, 7⟩, ⟨7, 7, 7⟩], [⟨7, 7, 7⟩, ⟨7, 7, 7⟩, ⟨7, 7, 7⟩],
          [⟨7, 7, 7⟩, ⟨7, 7, 7⟩, ⟨7, 7, 7⟩]]
        (Encode [[black, black, black], [black, black, black],
          [black, black, ⟨255, 255, 255⟩]] 0 0 3 10) 0 0 3) 2 2 = ⟨7, 7, 7⟩ ∧
    (⟨7, 7, 7⟩ : Color) ≠
      getPix [[black, black, black], [black, black, black],
        [black, black, ⟨255, 255, 255⟩]] 2 2 := by
  have htree : Encode [[black, black, black], [black, black, black],
      [black, black, ⟨255, 255, 255⟩]] 0 0 3 10 =
      QuadTree.node (.leaf black) (.leaf black) (.leaf black) (.leaf black) := by
    rw [Encode_eq, if_neg (by decide)]
    norm_num [Encode_one]
    decide
  refine ⟨htree, ?_, by decide⟩
  rw [htree]
  decide

/-- C5: `padToSquare` returns an `S×S` grid where `S` is the smallest power
of two `≥ max(W, H)` (and `S ≥ 1`), whose top-left `W×H` sub-region equals
the source cell-for-cell and whose every remaining cell is `(0,0,0)`; an
input that is already square with a power-of-two side is returned equal to
the input. -/
theorem padToSquare_spec (G : Image) (hwf : WellFormed G) :
    (∃ k, padSize (max G.width G.height) = 2 ^ k) ∧
    1 ≤ padSize (max G.width G.height) ∧
    max G.width G.height ≤ padSize (max G.width G.height) ∧
    (∀ j, max G.width G.height ≤ 2 ^ j →
      padSize (max G.width G.height) ≤ 2 ^ j) ∧
    Rect (PadToSquare G).data (padSize (max G.width G.height))
      (padSize (max G.width G.height)) ∧
    (∀ x y, x < G.width → y < G.height →
      getPix (PadToSquare G).data x y = getPix G.data x y) ∧
    (∀ x y, x < padSize (max G.width G.height) →
      y < padSize (max G.width G.height) → ¬(x < G.width ∧ y < G.height) →
      getPix (PadToSquare G).data x y = black) ∧
    (G.width = G.height → (∃ k, G.width = 2 ^ k) → PadToSquare G = G) := by
  obtain ⟨hw, hh, hrect⟩ := hwf
  have hge := padSize_ge (max G.width G.height)
  refine ⟨padSize_pow2 _, padSize_pos _, padSize_ge _,
    fun j hj => padSize_min _ j hj, ?_, ?_, ?_, ?_⟩
  · rw [padToSquare_data]
    exact mkGrid_rect _ _ _
  · intro x y hx hy
    rw [padToSquare_data, getPix_mkGrid, if_pos (by omega), if_pos ⟨hx, hy⟩]
  · intro x y hx hy hout
    rw [padToSquare_data, getPix_mkGrid, if_pos ⟨hx, hy⟩, if_neg hout]
  · intro hsq hpow
    have hmax : max G.width G.height = G.width := by omega
    have hS : padSize (max G.width G.height) = G.width := by
      rw [hmax]
      exact padSize_eq_of_pow2 hpow
    rw [← hsq] at hrect
    refine Image.ext' ?_ (by rw [padToSquare_w, hw]) (by rw [padToSquare_h, hh])
    rw [padToSquare_data]
    refine grid_ext ?_ hrect ?_
    · rw [hS]
      exact mkGrid_rect _ _ _
    · intro x y hx hy
      rw [getPix_mkGrid, if_pos (by omega), if_pos ⟨hx, by omega⟩]

theorem padToSquare_spec_witness :
    WellFormed ⟨[[⟨1, 0, 0⟩, ⟨2, 0, 0⟩, ⟨3, 0, 0⟩], [⟨4, 0, 0⟩, ⟨5, 0, 0⟩, ⟨6, 0, 0⟩],
        [⟨7, 0, 0⟩, ⟨8, 0, 0⟩, ⟨9, 0, 0⟩], [⟨10, 0, 0⟩, ⟨11, 0, 0⟩, ⟨12, 0, 0⟩],
        [⟨13, 0, 0⟩, ⟨14, 0, 0⟩, ⟨15, 0, 0⟩]], 3, 5⟩ ∧
    Rect (PadToSquare ⟨[[⟨1, 0, 0⟩, ⟨2, 0, 0⟩, ⟨3, 0, 0⟩],
        [⟨4, 0, 0⟩, ⟨5, 0, 0⟩, ⟨6, 0, 0⟩], [⟨7, 0, 0⟩, ⟨8, 0, 0⟩, ⟨9, 0, 0⟩],
        [⟨10, 0, 0⟩, ⟨11, 0, 0⟩, ⟨12, 0, 0⟩],
        [⟨13, 0, 0⟩, ⟨14, 0, 0⟩, ⟨15, 0, 0⟩]], 3, 5⟩).data 8 8 := by
  have hwf : WellFormed ⟨[[⟨1, 0, 0⟩, ⟨2, 0, 0⟩, ⟨3, 0, 0⟩],
      [⟨4, 0, 0⟩, ⟨5, 0, 0⟩, ⟨6, 0, 0⟩], [⟨7, 0, 0⟩, ⟨8, 0, 0⟩, ⟨9, 0, 0⟩],
      [⟨10, 0, 0⟩, ⟨11, 0, 0⟩, ⟨12, 0, 0⟩],
      [⟨13, 0, 0⟩, ⟨14, 0, 0⟩, ⟨15, 0, 0⟩]], 3, 5⟩ := by decide
  have h := (padToSquare_spec _ hwf).2.2.2.2.1
  have e : padSize (max
      (Image.width ⟨[[⟨1, 0, 0⟩, ⟨2, 0, 0⟩, ⟨3, 0, 0⟩],
        [⟨4, 0, 0⟩, ⟨5, 0, 0⟩, ⟨6, 0, 0⟩], [⟨7, 0, 0⟩, ⟨8, 0, 0⟩, ⟨9, 0, 0⟩],
        [⟨10, 0, 0⟩, ⟨11, 0, 0⟩, ⟨12, 0, 0⟩],
        [⟨13, 0, 0⟩, ⟨14, 0, 0⟩, ⟨15, 0, 0⟩]], 3, 5⟩)
      (Image.height ⟨[[⟨1, 0, 0⟩, ⟨2, 0, 0⟩, ⟨3, 0, 0⟩],
        [⟨4, 0, 0⟩, ⟨5, 0, 0⟩, ⟨6, 0, 0⟩], [⟨7, 0, 0⟩, ⟨8, 0, 0⟩, ⟨9, 0, 0⟩],
        [⟨10, 0, 0⟩, ⟨11, 0, 0⟩, ⟨12, 0, 0⟩],
        [⟨13, 0, 0⟩, ⟨14, 0, 0⟩, ⟨15, 0, 0⟩]], 3, 5⟩)) = 8 := by
    rw [show (max
      (Image.width ⟨[[⟨1, 0, 0⟩, ⟨2, 0, 0⟩, ⟨3, 0, 0⟩],
        [⟨4, 0, 0⟩, ⟨5, 0, 0⟩, ⟨6, 0, 0⟩], [⟨7, 0, 0⟩, ⟨8, 0, 0⟩, ⟨9, 0, 0⟩],
        [⟨10, 0, 0⟩, ⟨11, 0, 0⟩, ⟨12, 0, 0⟩],
        [⟨13, 0, 0⟩, ⟨14, 0, 0⟩, ⟨15, 0, 0⟩]], 3, 5⟩)
      (Image.height ⟨[[⟨1, 0, 0⟩, ⟨2, 0, 0⟩, ⟨3, 0, 0⟩],
        [⟨4, 0, 0⟩, ⟨5, 0, 0⟩, ⟨6, 0, 0⟩], [⟨7, 0, 0⟩, ⟨8, 0, 0⟩, ⟨9, 0, 0⟩],
        [⟨10, 0, 0⟩, ⟨11, 0, 0⟩, ⟨12, 0, 0⟩],
        [⟨13, 0, 0⟩, ⟨14, 0, 0⟩, ⟨15, 0, 0⟩]], 3, 5⟩)) = 5 from by decide]
    simp [padSize, padLoop_eq]
  rw [e] at h
  exact ⟨hwf, h⟩

/-- C6: cropping the result of `padToSquare(G)` back to `G`'s original width
and height yields `G` exactly. -/
theorem pad_crop_roundtrip (G : Image) (hwf : WellFormed G) :
    (PadToSquare G).Resize G.width G.height = G := by
  obtain ⟨hw, hh, hrect⟩ := hwf
  have hge := padSize_ge (max G.width G.height)
  refine Image.ext' ?_ (by rw [resize_w, hw]) (by rw [resize_h, hh])
  rw [resize_data]
  refine grid_ext (mkGrid_rect _ _ _) hrect ?_
  intro x y hx hy
  rw [getPix_mkGrid, if_pos ⟨hx, hy⟩, padToSquare_w, padToSquare_h,
    if_pos ⟨hx, hy⟩, padToSquare_data, getPix_mkGrid, if_pos (by omega),
    if_pos ⟨hx, hy⟩]

theorem pad_crop_roundtrip_witness :
    WellFormed ⟨[[⟨1, 1, 1⟩], [⟨2, 2, 2⟩]], 1, 2⟩ ∧
    (PadToSquare ⟨[[⟨1, 1, 1⟩], [⟨2, 2, 2⟩]], 1, 2⟩).Resize
        (Image.width ⟨[[⟨1, 1, 1⟩], [⟨2, 2, 2⟩]], 1, 2⟩)
        (Image.height ⟨[[⟨1, 1, 1⟩], [⟨2, 2, 2⟩]], 1, 2⟩) =
      ⟨[[⟨1, 1, 1⟩], [⟨2, 2, 2⟩]], 1, 2⟩ :=
  ⟨by decide, pad_crop_roundtrip _ (by decide)⟩

/-- C7: an `N×N` grid (`N = 2^k`) that is uniform except for one differing
pixel encodes, at tolerance 0, to a chain of `log2 N` internal nodes: the
depth along the path to that pixel is `k`, every off-path child of the chain
is an immediate leaf (so the tree has exactly `k` internal nodes), and the
differing pixel is isolated in a leaf of side 1. -/
theorem encode_isolates_single_pixel (g : Grid) (k px py : Nat)
    (base diff : Color) (hne : diff ≠ base)
    (hrect : Rect g (2 ^ k) (2 ^ k)) (hpx : px < 2 ^ k) (hpy : py < 2 ^ k)
    (hbase : ∀ i < 2 ^ k, ∀ j < 2 ^ k, ¬(i = px ∧ j = py) →
      getPix g i j = base)
    (hdiff : getPix g px py = diff) :
    depth (Encode g 0 0 (2 ^ k) 0) = k ∧
    countInternal (Encode g 0 0 (2 ^ k) 0) = k ∧
    leafSize (Encode g 0 0 (2 ^ k) 0) 0 0 (2 ^ k) px py = 1 :=
  encode_single_aux g (2 ^ k) base diff px py hne
    (fun i j hi hj hnp => hbase i hi j hj hnp) hdiff k 0 0
    (by omega) (by omega) (by omega) (by omega) (by omega) (by omega)

theorem encode_isolates_single_pixel_witness :
    (⟨255, 255, 255⟩ : Color) ≠ ⟨1, 1, 1⟩ ∧
    Rect ([[⟨1, 1, 1⟩, ⟨1, 1, 1⟩], [⟨1, 1, 1⟩, ⟨255, 255, 255⟩]] : Grid)
      (2 ^ 1) (2 ^ 1) ∧
    (∀ i < 2 ^ 1, ∀ j < 2 ^ 1, ¬(i = 1 ∧ j = 1) →
      getPix [[⟨1, 1, 1⟩, ⟨1, 1, 1⟩], [⟨1, 1, 1⟩, ⟨255, 255, 255⟩]] i j
        = ⟨1, 1, 1⟩) ∧
    depth (Encode [[⟨1, 1, 1⟩, ⟨1, 1, 1⟩], [⟨1, 1, 1⟩, ⟨255, 255, 255⟩]]
      0 0 (2 ^ 1) 0) = 1 ∧
    countInternal (Encode [[⟨1, 1, 1⟩, ⟨1, 1, 1⟩], [⟨1, 1, 1⟩, ⟨255, 255, 255⟩]]
      0 0 (2 ^ 1) 0) = 1 ∧
    leafSize (Encode [[⟨1, 1, 1⟩, ⟨1, 1, 1⟩], [⟨1, 1, 1⟩, ⟨255, 255, 255⟩]]
      0 0 (2 ^ 1) 0) 0 0 (2 ^ 1) 1 1 = 1 := by
  have h := encode_isolates_single_pixel
    [[⟨1, 1, 1⟩, ⟨1, 1, 1⟩], [⟨1, 1, 1⟩, ⟨255, 255, 255⟩]] 1 1 1
    ⟨1, 1, 1⟩ ⟨255, 255, 255⟩ (by decide) (by decide) (by decide) (by decide)
    (by decide) (by decide)
  exact ⟨by decide, by decide, by decide, h.1, h.2.1, h.2.2⟩

/-- C8: `Decode` writes only cells inside the `size×size` region at
`(x, y)` — every target cell outside that region is unchanged, and the
target's shape is preserved — and the value it writes into a region cell
never depends on the target's prior contents: for any second target of the
same shape, each region cell is either given the same tree-determined
colour in both decodes or left untouched in both. -/
theorem decode_writes_only_region (t : QuadTree) (x y size k : Nat)
    (hk : size = 2 ^ k) (target : Grid) (W H : Nat) (hrect : Rect target W H)
    (hxW : x + size ≤ W) (hyH : y + size ≤ H) :
    Rect (Decode target t x y size) W H ∧
    (∀ i j, i < x ∨ x + size ≤ i ∨ j < y ∨ y + size ≤ j →
      getPix (Decode target t x y size) i j = getPix target i j) ∧
    (∀ target', Rect target' W H →
      ∀ i j, x ≤ i → i < x + size → y ≤ j → j < y + size →
        getPix (Decode target t x y size) i j =
          getPix (Decode target' t x y size) i j ∨
        (getPix (Decode target t x y size) i j = getPix target i j ∧
         getPix (Decode target' t x y size) i j = getPix target' i j)) :=
  ⟨Decode_rect hrect t x y size,
   fun i j h => Decode_frame t target x y size i j h,
   fun target' hrect' i j hi1 hi2 hj1 hj2 =>
     decode_indep t x y size target target' W H hrect hrect' i j
       hi1 hi2 hj1 hj2⟩

theorem decode_writes_only_region_witness :
    (2 : Nat) = 2 ^ 1 ∧
    Rect ([[⟨9, 9, 9⟩, ⟨9, 9, 9⟩, ⟨9, 9, 9⟩], [⟨9, 9, 9⟩, ⟨9, 9, 9⟩, ⟨9, 9, 9⟩],
      [⟨9, 9, 9⟩, ⟨9, 9, 9⟩, ⟨9, 9, 9⟩]] : Grid) 3 3 ∧
    getPix (Decode [[⟨9, 9, 9⟩, ⟨9, 9, 9⟩, ⟨9, 9, 9⟩],
        [⟨9, 9, 9⟩, ⟨9, 9, 9⟩, ⟨9, 9, 9⟩], [⟨9, 9, 9⟩, ⟨9, 9, 9⟩, ⟨9, 9, 9⟩]]
      (QuadTree.node (.leaf ⟨1, 2, 3⟩) (.leaf ⟨4, 5, 6⟩) (.leaf ⟨7, 8, 9⟩)
        (.leaf ⟨2, 2, 2⟩)) 0 0 2) 2 2 =
      getPix [[⟨9, 9, 9⟩, ⟨9, 9, 9⟩, ⟨9, 9, 9⟩],
        [⟨9, 9, 9⟩, ⟨9, 9, 9⟩, ⟨9, 9, 9⟩], [⟨9, 9, 9⟩, ⟨9, 9, 9⟩, ⟨9, 9, 9⟩]] 2 2 ∧
    (getPix (Decode [[⟨9, 9, 9⟩, ⟨9, 9, 9⟩, ⟨9, 9, 9⟩],
        [⟨9, 9, 9⟩, ⟨9, 9, 9⟩, ⟨9, 9, 9⟩], [⟨9, 9, 9⟩, ⟨9, 9, 9⟩, ⟨9, 9, 9⟩]]
      (QuadTree.node (.leaf ⟨1, 2, 3⟩) (.leaf ⟨4, 5, 6⟩) (.leaf ⟨7, 8, 9⟩)
        (.leaf ⟨2, 2, 2⟩)) 0 0 2) 0 0 =
      getPix (Decode [[⟨0, 0, 1⟩, ⟨0, 0, 2⟩, ⟨0, 0, 3⟩],
        [⟨0, 0, 4⟩, ⟨0, 0, 5⟩, ⟨0, 0, 6⟩], [⟨0, 0, 7⟩, ⟨0, 0, 8⟩, ⟨0, 0, 9⟩]]
      (QuadTree.node (.leaf ⟨1, 2, 3⟩) (.leaf ⟨4, 5, 6⟩) (.leaf ⟨7, 8, 9⟩)
        (.leaf ⟨2, 2, 2⟩)) 0 0 2) 0 0 ∨
    (getPix (Decode [[⟨9, 9, 9⟩, ⟨9, 9, 9⟩, ⟨9, 9, 9⟩],
        [⟨9, 9, 9⟩, ⟨9, 9, 9⟩, ⟨9, 9, 9⟩], [⟨9, 9, 9⟩, ⟨9, 9, 9⟩, ⟨9, 9, 9⟩]]
      (QuadTree.node (.leaf ⟨1, 2, 3⟩) (.leaf ⟨4, 5, 6⟩) (.leaf ⟨7, 8, 9⟩)
        (.leaf ⟨2, 2, 2⟩)) 0 0 2) 0 0 =
      getPix [[⟨9, 9, 9⟩, ⟨9, 9, 9⟩, ⟨9, 9, 9⟩],
        [⟨9, 9, 9⟩, ⟨9, 9, 9⟩, ⟨9, 9, 9⟩], [⟨9, 9, 9⟩, ⟨9, 9, 9⟩, ⟨9, 9, 9⟩]] 0 0 ∧
     getPix (Decode [[⟨0, 0, 1⟩, ⟨0, 0, 2⟩, ⟨0, 0, 3⟩],
        [⟨0, 0, 4⟩, ⟨0, 0, 5⟩, ⟨0, 0, 6⟩], [⟨0, 0, 7⟩, ⟨0, 0, 8⟩, ⟨0, 0, 9⟩]]
      (QuadTree.node (.leaf ⟨1, 2, 3⟩) (.leaf ⟨4, 5, 6⟩) (.leaf ⟨7, 8, 9⟩)
        (.leaf ⟨2, 2, 2⟩)) 0 0 2) 0 0 =
      getPix [[⟨0, 0, 1⟩, ⟨0, 0, 2⟩, ⟨0, 0, 3⟩],
        [⟨0, 0, 4⟩, ⟨0, 0, 5⟩, ⟨0, 0, 6⟩],
        [⟨0, 0, 7⟩, ⟨0, 0, 8⟩, ⟨0, 0, 9⟩]] 0 0)) := by
  have h := decode_writes_only_region
    (QuadTree.node (.leaf ⟨1, 2, 3⟩) (.leaf ⟨4, 5, 6⟩) (.leaf ⟨7, 8, 9⟩)
      (.leaf ⟨2, 2, 2⟩)) 0 0 2 1 (by decide)
    [[⟨9, 9, 9⟩, ⟨9, 9, 9⟩, ⟨9, 9, 9⟩], [⟨9, 9, 9⟩, ⟨9, 9, 9⟩, ⟨9, 9, 9⟩],
      [⟨9, 9, 9⟩, ⟨9, 9, 9⟩, ⟨9, 9, 9⟩]] 3 3 (by decide) (by decide) (by decide)
  exact ⟨by decide, by decide, h.2.1 2 2 (by decide),
    h.2.2 [[⟨0, 0, 1⟩, ⟨0, 0, 2⟩, ⟨0, 0, 3⟩], [⟨0, 0, 4⟩, ⟨0, 0, 5⟩, ⟨0, 0, 6⟩],
      [⟨0, 0, 7⟩, ⟨0, 0, 8⟩, ⟨0, 0, 9⟩]] (by decide) 0 0 (by decide) (by decide)
      (by decide) (by decide)⟩

/-- C9: `Resize` (crop) returns a defined `w×h` grid even when `w` or `h`
exceed the source's recorded dimensions: cells inside the recorded
`w_ × h_` area are copied from the source and every other cell is filled
with `(0,0,0)`; no error is raised for an oversized crop. -/
theorem resize_spec (img : Image) (w h : Nat) (hwf : WellFormed img) :
    Rect (img.Resize w h).data w h ∧
    (img.Resize w h).w_ = w ∧ (img.Resize w h).h_ = h ∧
    ∀ x y, x < w → y < h →
      getPix (img.Resize w h).data x y =
        if x < img.w_ ∧ y < img.h_ then getPix img.data x y else black := by
  refine ⟨by rw [resize_data]; exact mkGrid_rect _ _ _,
    resize_w img w h, resize_h img w h, ?_⟩
  intro x y hx hy
  rw [resize_data, getPix_mkGrid, if_pos ⟨hx, hy⟩]

theorem resize_spec_witness :
    WellFormed ⟨[[⟨5, 5, 5⟩]], 1, 1⟩ ∧
    Rect ((Image.Resize ⟨[[⟨5, 5, 5⟩]], 1, 1⟩ 2 3).data) 2 3 ∧
    getPix (Image.Resize ⟨[[⟨5, 5, 5⟩]], 1, 1⟩ 2 3).data 1 2 = black := by
  have h := resize_spec ⟨[[⟨5, 5, 5⟩]], 1, 1⟩ 2 3 (by decide)
  refine ⟨by decide, h.1, ?_⟩
  have hc := h.2.2.2 1 2 (by decide) (by decide)
  rwa [if_neg (by decide)] at hc

/-- C10: `padToSquare` applied to an empty 0×0 grid returns a 1×1 grid whose
single cell is `(0,0,0)`: the computed side is 1 even when `max(W, H) = 0`,
and the newly allocated cell is zero-initialised (the recorded original
dimensions stay 0×0). -/
theorem padToSquare_empty :
    PadToSquare ⟨[], 0, 0⟩ = ⟨[[black]], 0, 0⟩ := by
  refine Image.ext' ?_ rfl rfl
  rw [padToSquare_data]
  have e : padSize (max (Image.width (⟨[], 0, 0⟩ : Image))
      (Image.height (⟨[], 0, 0⟩ : Image))) = 1 := by
    rw [show (max (Image.width (⟨[], 0, 0⟩ : Image))
      (Image.height (⟨[], 0, 0⟩ : Image))) = 0 from rfl]
    simp [padSize, padLoop_eq]
  rw [e]
  decide
